/-
Verification of the sequence-primitive library `uuuu` (module `iterables`).

Each Python function from `uuuu/iterables.py` is shallowly embedded as a Lean
function over lists.  Python iterators are modelled as lists of remaining
items; generator functions are modelled by the value produced by a full
traversal, together with (where a claim is about error timing) explicit
descriptions of what runs at call time versus at the first pull.  Python
`None` is modelled as `Option.none` where a function's behaviour depends on
the `is None` / `is not None` sentinel tests in the source.
-/
import Mathlib

namespace Uuuu

/-- Python exception kinds that the embedded functions can raise. -/
inductive PyErr where
  | valueError
  | zeroDivisionError
deriving DecidableEq

/-! ## `batches`

```python
def batches(items, batch_size):
    if batch_size < 2:
        raise ValueError("Batch size must be greater than or equal to two.")
    batch = []
    for item in items:
        batch.append(item)
        if len(batch) >= batch_size:
            yield tuple(batch)
            batch = []
    if batch:
        yield tuple(batch)
```
-/

/-- The loop of `batches`: accumulate into `batch`, emit when full, and emit
the non-empty remainder at the end. -/
def batchesGo (size : Nat) (batch : List α) : List α → List (List α)
  | [] => if batch.isEmpty then [] else [batch]
  | x :: xs =>
    let b := batch ++ [x]
    if size ≤ b.length then b :: batchesGo size [] xs else batchesGo size b xs

/-- Full traversal of the `batches` generator.  The `batch_size < 2` check is
the first statement of the body, so a full traversal raises `ValueError`
for such sizes before anything else happens. -/
def batches (items : List α) (batch_size : Int) : Except PyErr (List (List α)) :=
  if batch_size < 2 then .error .valueError
  else .ok (batchesGo batch_size.toNat [] items)

/-! ## Call-time versus first-pull errors

`batches`, `drop_random` and `throttle` are Python *generator functions*
(their bodies contain `yield`): calling them creates a generator object and
executes none of the body, so their argument checks run only when the
returned sequence is first pulled.  `peek` is an ordinary function, so its
check runs at the call itself.  The `…CallError` definitions describe what
is raised by the call, the `…PullError` definitions what is raised by the
first pull on the result. -/

/-- Calling the generator function `batches` executes no body code, so no
argument validation happens at the call. -/
def batchesCallError (_batch_size : Int) : Option PyErr :=
  none

/-- The first pull on a `batches` generator runs the body up to the first
`yield`; the `batch_size < 2` check is its first statement and does not
touch the input. -/
def batchesPullError (batch_size : Int) : Option PyErr :=
  if batch_size < 2 then some .valueError else none

/-- Calling the generator function `drop_random` executes no body code. -/
def dropRandomCallError (_rate : ℚ) : Option PyErr :=
  none

/-- The first pull on a `drop_random` generator runs the
`not 0 <= rate <= 1` check before touching the input. -/
def dropRandomPullError (rate : ℚ) : Option PyErr :=
  if ¬ (0 ≤ rate ∧ rate ≤ 1) then some .valueError else none

/-- `peek` is not a generator function: the `num_items < 0` check runs at
the call itself, before anything is returned. -/
def peekCallError (num_items : Int) : Option PyErr :=
  if num_items < 0 then some .valueError else none

/-- Calling the generator function `throttle` executes no body code. -/
def throttleCallError (_max_rate : Int) : Option PyErr :=
  none

/-- The first pull on a `throttle` generator computes
`interval = 1.0 / max_rate` (ZeroDivisionError when `max_rate = 0`) and
then, if the input has a first item, runs `time.sleep(interval)`, which
raises `ValueError` for a negative interval.  With an empty input the loop
body never runs, so a negative rate raises nothing. -/
def throttlePullError (itemsNonempty : Bool) (max_rate : Int) : Option PyErr :=
  if max_rate = 0 then some .zeroDivisionError
  else if max_rate < 0 then (if itemsNonempty then some .valueError else none)
  else none

/-! ## `throttle`

```python
def throttle(items, max_rate):
    interval = 1.0 / max_rate
    for item in items:
        time.sleep(interval)
        yield item
```
-/

/-- Full traversal of the `throttle` generator.  `max_rate = 0` makes the
`interval` computation raise ZeroDivisionError on the first pull;
`max_rate < 0` makes `time.sleep(interval)` raise `ValueError` when the
first item is reached (an empty input never reaches the sleep); otherwise
every item is passed through unchanged, in order. -/
def throttle (items : List α) (max_rate : Int) : Except PyErr (List α) :=
  if max_rate = 0 then .error .zeroDivisionError
  else if max_rate < 0 then
    match items with
    | [] => .ok []
    | _ :: _ => .error .valueError
  else .ok items

/-! ## `peek`

```python
def peek(items, num_items):
    if num_items < 0:
        raise ValueError("Cannot peek negative items from an iterable.")
    seq1, seq2 = itertools.tee(items, 2)
    peeked = itertools.islice(seq1, num_items)
    if isinstance(items, Iterator):
        return peeked, itertools.chain(seq2, items)
    return peeked, seq2
```

The two returned lazy sequences are modelled operationally by an explicit
state machine.  `source` is the physical source (the items not yet read
from the underlying iterator); `buf1`/`buf2` are the tee buffers of
`seq1`/`seq2` (items already read from the source by the *other* branch);
`peekLeft` is the number of items `islice` will still deliver;
`chainPhase` records that `chain(seq2, items)` has switched from `seq2` to
pulling the raw source (which, for the `Iterator` branch of the code, can
only happen once the tee has exhausted the shared source, and for a
replayable input never yields anything either, so one machine covers both
branches); `peekOut`/`contOut` collect the items delivered so far by the
peeked sequence and the continuation; `reads` counts the `next` calls on
the physical source that returned an item. -/
structure PeekState (α : Type) where
  source : List α
  buf1 : List α
  buf2 : List α
  peekLeft : Nat
  chainPhase : Bool
  peekOut : List α
  contOut : List α
  reads : Nat
deriving DecidableEq

/-- A consumer action: pull once on the peeked sequence or once on the
continuation. -/
inductive PeekAction where
  | pullPeeked
  | pullCont
deriving DecidableEq

/-- One pull on one of the two sequences returned by `peek`.  Pulling the
peeked sequence services `islice(seq1, num_items)`: nothing when the slice
is used up, otherwise `seq1`'s tee buffer first and then the shared source
(buffering the item for `seq2`).  Pulling the continuation services
`chain(seq2, items)`: `seq2`'s tee buffer first, then the shared source
(buffering the item for `seq1`); when `seq2` is exhausted the chain moves
on to the raw source. -/
def peekStep (s : PeekState α) : PeekAction → PeekState α
  | .pullPeeked =>
    if s.peekLeft = 0 then s
    else
      match s.buf1 with
      | x :: r =>
        { s with buf1 := r, peekLeft := s.peekLeft - 1, peekOut := s.peekOut ++ [x] }
      | [] =>
        match s.source with
        | y :: r =>
          { s with source := r, buf2 := s.buf2 ++ [y], peekLeft := s.peekLeft - 1,
                   peekOut := s.peekOut ++ [y], reads := s.reads + 1 }
        | [] => s
  | .pullCont =>
    if s.chainPhase then
      match s.source with
      | y :: r => { s with source := r, contOut := s.contOut ++ [y], reads := s.reads + 1 }
      | [] => s
    else
      match s.buf2 with
      | x :: r => { s with buf2 := r, contOut := s.contOut ++ [x] }
      | [] =>
        match s.source with
        | y :: r =>
          { s with source := r, buf1 := s.buf1 ++ [y], contOut := s.contOut ++ [y],
                   reads := s.reads + 1 }
        | [] => { s with chainPhase := true }

/-- The state directly after `peek(S, n)` returns, before any pull. -/
def peekInit (S : List α) (n : Nat) : PeekState α :=
  ⟨S, [], [], n, false, [], [], 0⟩

/-- Run a whole schedule of pulls against the pair returned by
`peek(S, n)`. -/
def peekRun (S : List α) (n : Nat) (acts : List PeekAction) : PeekState α :=
  acts.foldl peekStep (peekInit S n)

/-- The peeked sequence returns nothing further: either the `islice` count
is used up or both its buffer and the source are exhausted. -/
def peekedDone (s : PeekState α) : Prop :=
  s.peekLeft = 0 ∨ (s.buf1 = [] ∧ s.source = [])

/-- The continuation returns nothing further: `seq2`'s buffer and the
source are exhausted. -/
def contDone (s : PeekState α) : Prop :=
  s.buf2 = [] ∧ s.source = []

instance (s : PeekState α) [DecidableEq α] : Decidable (peekedDone s) := by
  unfold peekedDone
  infer_instance

instance (s : PeekState α) [DecidableEq α] : Decidable (contDone s) := by
  unfold contDone
  infer_instance

/-- Invariant tying a `peek` machine state to the original input `S` and
peek count `n`: the continuation's past output followed by what it will
still see is exactly `S`; likewise for the peeked sequence; the peeked
output and the remaining `islice` budget account for `n`; the chain only
moves to the raw source once the shared source and `seq2` buffer are
exhausted; and every item read from the physical source so far is one of
the `S.length` items, each read at most once. -/
def PeekInv (S : List α) (n : Nat) (s : PeekState α) : Prop :=
  s.contOut ++ s.buf2 ++ s.source = S ∧
  s.peekOut ++ s.buf1 ++ s.source = S ∧
  s.peekOut.length + s.peekLeft = n ∧
  (s.chainPhase = true → s.source = [] ∧ s.buf2 = []) ∧
  s.reads + s.source.length = S.length

/-! ## `split`

```python
def split(predicate, items):
    true_iter, false_iter = itertools.tee(items, 2)
    return filter(predicate, true_iter), itertools.filterfalse(predicate, false_iter)
```

Each returned sequence is an independent filter over its own tee branch,
and each of `filter` and `filterfalse` invokes the predicate once per item
it pulls from its branch.  Full consumption of an output is therefore
modelled by a filter that also counts its predicate invocations. -/

/-- Full consumption of `filter(predicate, true_iter)`: the kept items and
the number of predicate evaluations performed. -/
def filterWithCount (p : α → Bool) : List α → List α × Nat
  | [] => ([], 0)
  | x :: xs =>
    let r := filterWithCount p xs
    (if p x then x :: r.1 else r.1, r.2 + 1)

/-- Full consumption of `itertools.filterfalse(predicate, false_iter)`:
the kept items and the number of predicate evaluations performed. -/
def filterFalseWithCount (p : α → Bool) : List α → List α × Nat
  | [] => ([], 0)
  | x :: xs =>
    let r := filterFalseWithCount p xs
    (if p x then r.1 else x :: r.1, r.2 + 1)

/-- `split`, with both outputs fully consumed: each component carries the
items it yields and the predicate evaluations its consumption performs. -/
def split (p : α → Bool) (items : List α) : (List α × Nat) × (List α × Nat) :=
  (filterWithCount p items, filterFalseWithCount p items)

/-- Total number of predicate evaluations when both outputs of `split` are
fully consumed. -/
def splitEvalTotal (p : α → Bool) (items : List α) : Nat :=
  (split p items).1.2 + (split p items).2.2

/-! ## `filter_with_state`

```python
def filter_with_state(items, predicate):
    prev = None
    for item in items:
        if prev is None or predicate(prev, item):
            yield item
        prev = item
```

Because `prev` starts as `None` and is compared with `is None`, an input
item that is itself `None` makes the *next* item pass unconditionally; the
items are therefore modelled as `Option β` values, `none` standing for
Python `None`. -/

/-- The loop of `filter_with_state` with current `prev` value. -/
def fwsGo (p : Option β → Option β → Bool) (prev : Option β) :
    List (Option β) → List (Option β)
  | [] => []
  | x :: xs => if prev.isNone || p prev x then x :: fwsGo p x xs else fwsGo p x xs

/-- Full traversal of `filter_with_state`. -/
def filter_with_state (items : List (Option β)) (p : Option β → Option β → Bool) :
    List (Option β) :=
  fwsGo p none items

/-- Modelled from the claim: emit the first item unconditionally, and each
subsequent item exactly when `predicate(prev, curr)` holds for the
immediately preceding input item. -/
def fwsClaimGo (p : Option β → Option β → Bool) (prev : Option β) :
    List (Option β) → List (Option β)
  | [] => []
  | y :: ys => if p prev y then y :: fwsClaimGo p y ys else fwsClaimGo p y ys

/-- Modelled from the claim: the behaviour claim C7 asserts for
`filter_with_state`. -/
def fwsClaim (items : List (Option β)) (p : Option β → Option β → Bool) :
    List (Option β) :=
  match items with
  | [] => []
  | x :: xs => x :: fwsClaimGo p x xs

/-- Positional description of what the code actually does: the first item
always, and each subsequent item exactly when the previous input item was
`None` or the predicate accepts the (previous, current) pair. -/
def fwsAmendedSpec (items : List (Option β)) (p : Option β → Option β → Bool) :
    List (Option β) :=
  match items with
  | [] => []
  | x :: xs =>
    x :: ((xs.zip items).filter (fun c => c.2.isNone || p c.2 c.1)).map Prod.fst

/-! ## `rolling_aggregate`

```python
def rolling_aggregate(items, func, initial=None):
    agg = initial
    for item in items:
        agg = func(agg, item) if agg is not None else item
        yield agg
```

The accumulator uses `None` as the "absent" sentinel (`is not None`), so
items and accumulator values are modelled as `Option β`. -/

/-- The loop of `rolling_aggregate`. -/
def raGo (f : Option β → Option β → Option β) (agg : Option β) :
    List (Option β) → List (Option β)
  | [] => []
  | x :: xs =>
    let a2 := if agg.isSome then f agg x else x
    a2 :: raGo f a2 xs

/-- Full traversal of `rolling_aggregate`; `initial = none` models the
omitted default argument. -/
def rolling_aggregate (items : List (Option β)) (f : Option β → Option β → Option β)
    (initial : Option β) : List (Option β) :=
  raGo f initial items

/-- Modelled from the claim: the pure recurrence
`output_i = combine(output_(i-1), item_i)` seeded with `acc`. -/
def raSpecGo (f : Option β → Option β → Option β) (acc : Option β) :
    List (Option β) → List (Option β)
  | [] => []
  | x :: xs => f acc x :: raSpecGo f (f acc x) xs

/-- Modelled from the claim: behaviour claim C8 asserts when `initial` is
supplied. -/
def raClaimSupplied (f : Option β → Option β → Option β) (initial : Option β)
    (items : List (Option β)) : List (Option β) :=
  raSpecGo f initial items

/-- Modelled from the claim: behaviour claim C8 asserts when `initial` is
omitted (first output is the first item verbatim). -/
def raClaimOmitted (f : Option β → Option β → Option β)
    (items : List (Option β)) : List (Option β) :=
  match items with
  | [] => []
  | x :: xs => x :: raSpecGo f x xs

/-! ## `inner_join`

```python
def inner_join(stream1, stream2, key1, key2):
    lookup = {key2(item): item for item in stream2}
    for item in stream1:
        k = key1(item)
        if k in lookup:
            yield item, lookup[k]
```
-/

/-- The dict comprehension `{key2(item): item for item in stream2}`,
modelled observationally as a finite map `κ → Option β` built by repeated
overwriting insertion in stream order. -/
def buildLookupFrom [DecidableEq κ] (key2 : β → κ) (d : κ → Option β) :
    List β → κ → Option β
  | [] => d
  | r :: rs => buildLookupFrom key2 (fun k => if k = key2 r then some r else d k) rs

/-- The lookup built from the whole right stream, starting from the empty
dict. -/
def buildLookup [DecidableEq κ] (key2 : β → κ) (rs : List β) : κ → Option β :=
  buildLookupFrom key2 (fun _ => none) rs

/-- Full traversal of `inner_join`: one output pair per `stream1` item
whose key is present in the lookup built from `stream2`. -/
def inner_join [DecidableEq κ] (s1 : List τ) (s2 : List β)
    (key1 : τ → κ) (key2 : β → κ) : List (τ × β) :=
  s1.filterMap (fun l => (buildLookup key2 s2 (key1 l)).map (fun r => (l, r)))

/-! ## `roundrobin`

```python
def roundrobin(*iterables):
    iterators = [iter(it) for it in iterables]
    while iterators:
        for it in list(iterators):
            try:
                yield next(it)
            except StopIteration:
                iterators.remove(it)
```
-/

/-- One pass of the inner `for` loop over a snapshot of the iterator list:
yields the head of every non-exhausted iterator (in listed order) and
returns the list of iterators surviving into the next round (an exhausted
iterator is removed; one that just yielded survives with its tail). -/
def roundRound : List (List α) → List α × List (List α)
  | [] => ([], [])
  | [] :: rest => roundRound rest
  | (x :: xs) :: rest =>
    let r := roundRound rest
    (x :: r.1, xs :: r.2)

/-- Fuel bound for the `while iterators:` loop: every round strictly
decreases this measure, and it bounds the number of rounds. -/
def rrMeasure (ls : List (List α)) : Nat :=
  (ls.map (fun l => l.length + 1)).sum

/-- The `while iterators:` loop, with fuel standing in for the termination
argument (the measure strictly decreases each round, so `rrMeasure`-many
rounds always suffice). -/
def rrLoop (fuel : Nat) (ls : List (List α)) : List α :=
  match fuel with
  | 0 => []
  | fuel + 1 =>
    if ls.isEmpty then []
    else
      let r := roundRound ls
      r.1 ++ rrLoop fuel r.2

/-- Full traversal of `roundrobin` on a list of input sequences. -/
def roundrobin (ls : List (List α)) : List α :=
  rrLoop (rrMeasure ls) ls

/-- Length of the longest input sequence. -/
def rrMaxLen (ls : List (List α)) : Nat :=
  (ls.map List.length).foldr max 0

/-- Modelled from the spec: round `r` contributes, in listed order, the
`r`-th item of every input sequence still long enough; output order is
round index, then input index. -/
def rrSpec (ls : List (List α)) : List α :=
  ((List.range (rrMaxLen ls)).map (fun r => ls.filterMap (fun l => l[r]?))).flatten

end Uuuu

namespace Uuuu

theorem batchesGo_flatten (size : Nat) :
    ∀ (xs batch : List α), (batchesGo size batch xs).flatten = batch ++ xs := by
  intro xs
  induction xs with
  | nil =>
    intro batch
    by_cases h : batch = []
    · subst h
      simp [batchesGo]
    · simp [batchesGo, h]
  | cons x xs ih =>
    intro batch
    by_cases h : size ≤ batch.length + 1
    · simp [batchesGo, h, ih]
    · simp [batchesGo, h, ih]

theorem batchesGo_mem_len (size : Nat) (hs : 2 ≤ size) :
    ∀ (xs batch : List α), batch.length < size →
      ∀ g ∈ batchesGo size batch xs, 1 ≤ g.length ∧ g.length ≤ size := by
  intro xs
  induction xs with
  | nil =>
    intro batch hb g hg
    by_cases h : batch = []
    · subst h
      simp [batchesGo] at hg
    · simp [batchesGo, h] at hg
      rw [hg]
      have hpos : 0 < batch.length := List.length_pos.mpr h
      omega
  | cons x xs ih =>
    intro batch hb g hg
    by_cases h : size ≤ batch.length + 1
    · simp only [batchesGo, List.length_append, List.length_cons, List.length_nil,
        Nat.zero_add, if_pos h] at hg
      rcases List.mem_cons.mp hg with hg | hg
      · rw [hg]
        simp
        omega
      · exact ih [] (by simpa using Nat.lt_of_lt_of_le Nat.zero_lt_two hs) g hg
    · simp only [batchesGo, List.length_append, List.length_cons, List.length_nil,
        Nat.zero_add, if_neg h] at hg
      exact ih (batch ++ [x]) (by simp; omega) g hg

theorem batchesGo_dropLast_len (size : Nat) :
    ∀ (xs batch : List α), batch.length < size →
      ∀ g ∈ (batchesGo size batch xs).dropLast, g.length = size := by
  intro xs
  induction xs with
  | nil =>
    intro batch _ g hg
    by_cases h : batch = []
    · subst h
      simp [batchesGo] at hg
    · simp [batchesGo, h] at hg
  | cons x xs ih =>
    intro batch hb g hg
    by_cases h : size ≤ batch.length + 1
    · rcases hrec : batchesGo size ([] : List α) xs with _ | ⟨y, ys⟩
      · simp only [batchesGo, List.length_append, List.length_cons, List.length_nil,
          Nat.zero_add, if_pos h, hrec] at hg
        simp at hg
      · simp only [batchesGo, List.length_append, List.length_cons, List.length_nil,
          Nat.zero_add, if_pos h, hrec, List.dropLast_cons₂] at hg
        rcases List.mem_cons.mp hg with hg | hg
        · rw [hg]
          simp
          omega
        · have := ih [] (by simp; omega) g
          rw [hrec] at this
          exact this hg
    · simp only [batchesGo, List.length_append, List.length_cons, List.length_nil,
        Nat.zero_add, if_neg h] at hg
      exact ih (batch ++ [x]) (by simp; omega) g hg

theorem batchesGo_nil (size : Nat) : batchesGo size ([] : List α) [] = [] := by
  simp [batchesGo]

/-- Claim C2: for every sequence `S` and integer `size ≥ 2`, `batches`
succeeds and returns groups whose concatenation reconstructs `S` exactly;
every group except possibly the last has length exactly `size`; every group
(in particular the last) has length in `[1, size]`; and an empty input
yields an empty sequence of groups. -/
theorem batches_spec (S : List α) (size : Int) (hs : 2 ≤ size) :
    ∃ R, batches S size = Except.ok R ∧
      R.flatten = S ∧
      (∀ g ∈ R.dropLast, g.length = size.toNat) ∧
      (∀ g ∈ R, 1 ≤ g.length ∧ g.length ≤ size.toNat) ∧
      (S = [] → R = []) := by
  have hlt : ¬ size < 2 := by omega
  have hs2 : 2 ≤ size.toNat := by omega
  refine ⟨batchesGo size.toNat [] S, ?_, ?_, ?_, ?_, ?_⟩
  · simp [batches, hlt]
  · simpa using batchesGo_flatten size.toNat S []
  · exact batchesGo_dropLast_len size.toNat S []
      (by simpa using Nat.lt_of_lt_of_le Nat.zero_lt_two hs2)
  · exact batchesGo_mem_len size.toNat hs2 S []
      (by simpa using Nat.lt_of_lt_of_le Nat.zero_lt_two hs2)
  · intro h
    subst h
    exact batchesGo_nil size.toNat

/-! ### Claim C3: error timing of argument validation -/

/-- Counterexample to claim C3: `batches` is a generator function, so
calling it with the invalid size `1` raises nothing at the call itself;
the `ValueError` only surfaces when the returned sequence is iterated. -/
theorem batches_not_eager_cex :
    batchesCallError 1 = none ∧
    batches ([] : List Nat) 1 = Except.error PyErr.valueError := by
  constructor
  · rfl
  · simp [batches]

/-- Claim C3 as amended: for `batches` and `drop_random` the invalid
argument raises `ValueError` on the first pull of the returned generator
(before any input item is consumed), not synchronously at the call; `peek`
alone validates synchronously at the call; `throttle` raises nothing at the
call and fails on the first pull, with ZeroDivisionError for
`max_rate = 0` and, for `max_rate < 0`, a `ValueError` from the negative
sleep that only happens when a first input item exists. -/
theorem validation_timing (size : Int) (rate : ℚ) (n : Int) (r : Int) (ne : Bool) :
    (size < 2 →
      batchesCallError size = none ∧ batchesPullError size = some PyErr.valueError) ∧
    (¬ (0 ≤ rate ∧ rate ≤ 1) →
      dropRandomCallError rate = none ∧ dropRandomPullError rate = some PyErr.valueError) ∧
    (n < 0 → peekCallError n = some PyErr.valueError) ∧
    (r = 0 →
      throttleCallError r = none ∧ throttlePullError ne r = some PyErr.zeroDivisionError) ∧
    (r < 0 →
      throttleCallError r = none ∧ throttlePullError true r = some PyErr.valueError ∧
      throttlePullError false r = none) := by
  refine ⟨fun h => ⟨rfl, ?_⟩, fun h => ⟨rfl, ?_⟩, fun h => ?_, fun h => ⟨rfl, ?_⟩,
    fun h => ⟨rfl, ?_, ?_⟩⟩
  · simp [batchesPullError, h]
  · simp [dropRandomPullError, h]
  · simp [peekCallError, h]
  · simp [throttlePullError, h]
  · have h0 : r ≠ 0 := by omega
    simp [throttlePullError, h, h0]
  · have h0 : r ≠ 0 := by omega
    simp [throttlePullError, h, h0]

/-- Witness for claim C3's amended theorem, at size `1`, rate `2`,
peek count `-1`, and throttle rates `0` and `-1`. -/
theorem validation_timing_witness :
    batchesPullError 1 = some PyErr.valueError ∧
    dropRandomPullError 2 = some PyErr.valueError ∧
    peekCallError (-1) = some PyErr.valueError ∧
    throttlePullError true 0 = some PyErr.zeroDivisionError ∧
    throttlePullError true (-1) = some PyErr.valueError ∧
    throttlePullError false (-1) = none :=
  ⟨((validation_timing 1 2 (-1) 0 true).1 (by norm_num)).2,
   ((validation_timing 1 2 (-1) 0 true).2.1 (by norm_num)).2,
   (validation_timing 1 2 (-1) 0 true).2.2.1 (by norm_num),
   ((validation_timing 1 2 (-1) 0 true).2.2.2.1 rfl).2,
   ((validation_timing 1 2 (-1) (-1) true).2.2.2.2 (by norm_num)).2.1,
   ((validation_timing 1 2 (-1) (-1) true).2.2.2.2 (by norm_num)).2.2⟩

/-! ### Claim C4: throttle error behaviour and pass-through -/

/-- Counterexample to claim C4: `throttle` with the non-positive rate `-1`
and an empty input completes without failing (the `time.sleep` that would
raise never runs), so not every `max_rate ≤ 0` call fails. -/
theorem throttle_empty_negative_cex :
    throttle ([] : List Nat) (-1) = Except.ok [] := by
  simp [throttle]

/-- Claim C4 as amended: `max_rate = 0` fails with ZeroDivisionError on the
first pull; `max_rate < 0` fails with `ValueError` at the first item, so an
empty input yields nothing and does not fail; every `max_rate > 0` passes
all items through unchanged and in input order. -/
theorem throttle_amended (items : List α) (r : Int) :
    (r = 0 → throttle items r = Except.error PyErr.zeroDivisionError) ∧
    (r < 0 → items ≠ [] → throttle items r = Except.error PyErr.valueError) ∧
    (r < 0 → throttle ([] : List α) r = Except.ok []) ∧
    (0 < r → throttle items r = Except.ok items) := by
  refine ⟨fun h => ?_, fun h hne => ?_, fun h => ?_, fun h => ?_⟩
  · simp [throttle, h]
  · have h0 : r ≠ 0 := by omega
    cases items with
    | nil => exact absurd rfl hne
    | cons x xs => simp [throttle, h0, h]
  · have h0 : r ≠ 0 := by omega
    simp [throttle, h0, h]
  · have h0 : r ≠ 0 := by omega
    have h1 : ¬ r < 0 := by omega
    simp [throttle, h0, h1]

/-- Witness for claim C4's amended theorem at rates `0`, `-1` and `5` on
the input `[1, 2, 3]`. -/
theorem throttle_amended_witness :
    throttle [1, 2, 3] (0 : Int) = Except.error PyErr.zeroDivisionError ∧
    throttle [1, 2, 3] (-1 : Int) = Except.error PyErr.valueError ∧
    throttle ([] : List Nat) (-1 : Int) = Except.ok [] ∧
    throttle [1, 2, 3] (5 : Int) = Except.ok [1, 2, 3] :=
  ⟨(throttle_amended [1, 2, 3] 0).1 rfl,
   (throttle_amended [1, 2, 3] (-1)).2.1 (by norm_num) (by simp),
   (throttle_amended ([] : List Nat) (-1)).2.2.1 (by norm_num),
   (throttle_amended [1, 2, 3] 5).2.2.2 (by norm_num)⟩

/-! ### Claims C5 and C6: `split` -/

theorem filterWithCount_fst (p : α → Bool) :
    ∀ S : List α, (filterWithCount p S).1 = S.filter p := by
  intro S
  induction S with
  | nil => rfl
  | cons x xs ih =>
    by_cases h : p x <;> simp [filterWithCount, List.filter_cons, h, ih]

theorem filterWithCount_snd (p : α → Bool) :
    ∀ S : List α, (filterWithCount p S).2 = S.length := by
  intro S
  induction S with
  | nil => rfl
  | cons x xs ih => simp [filterWithCount, ih]

theorem filterFalseWithCount_fst (p : α → Bool) :
    ∀ S : List α, (filterFalseWithCount p S).1 = S.filter (fun x => !p x) := by
  intro S
  induction S with
  | nil => rfl
  | cons x xs ih =>
    by_cases h : p x <;> simp [filterFalseWithCount, List.filter_cons, h, ih]

theorem filterFalseWithCount_snd (p : α → Bool) :
    ∀ S : List α, (filterFalseWithCount p S).2 = S.length := by
  intro S
  induction S with
  | nil => rfl
  | cons x xs ih => simp [filterFalseWithCount, ih]

/-- Counterexample to claim C5: on the three-element input `[1, 2, 3]`,
fully consuming both outputs of `split` evaluates the predicate six times,
not three — each output consumer evaluates it once per item. -/
theorem split_single_eval_cex :
    ¬ splitEvalTotal (fun x => decide (x % 2 = 0)) [1, 2, 3] =
      ([1, 2, 3] : List Nat).length := by
  decide

/-- Claim C5 as amended: when both output sequences of `split` are fully
consumed, the predicate is evaluated exactly twice per input item — once
by the `filter` consumer and once by the `filterfalse` consumer — rather
than once per item in total. -/
theorem split_eval_twice (p : α → Bool) (S : List α) :
    splitEvalTotal p S = 2 * S.length := by
  simp [splitEvalTotal, split, filterWithCount_snd, filterFalseWithCount_snd]
  omega

/-- Claim C6: `split` places every input item in exactly one of the two
outputs — the matched output holds exactly the items satisfying the
predicate, the unmatched output exactly those that do not — each output is
a sublist of the input (so original relative order is preserved), every
occurrence is accounted for once (counts add up), and the two outputs
together are a permutation of the input. -/
theorem split_partition [DecidableEq α] (p : α → Bool) (S : List α) :
    (split p S).1.1.Sublist S ∧
    (split p S).2.1.Sublist S ∧
    (split p S).1.1.all p = true ∧
    (split p S).2.1.all (fun x => !p x) = true ∧
    (∀ x ∈ S, p x → x ∈ (split p S).1.1) ∧
    (∀ x ∈ S, ¬ p x → x ∈ (split p S).2.1) ∧
    (∀ x, ((split p S).1.1).count x + ((split p S).2.1).count x = S.count x) ∧
    ((split p S).1.1 ++ (split p S).2.1).Perm S := by
  have hm : (split p S).1.1 = S.filter p := filterWithCount_fst p S
  have hu : (split p S).2.1 = S.filter (fun x => !p x) := filterFalseWithCount_fst p S
  have hperm : ((split p S).1.1 ++ (split p S).2.1).Perm S := by
    rw [hm, hu]
    exact List.filter_append_perm p S
  refine ⟨?_, ?_, ?_, ?_, ?_, ?_, ?_, hperm⟩
  · rw [hm]; exact List.filter_sublist S
  · rw [hu]; exact List.filter_sublist S
  · rw [hm]
    simp [List.all_eq_true]
  · rw [hu]
    simp [List.all_eq_true]
  · intro x hx hpx
    rw [hm]
    exact List.mem_filter.mpr ⟨hx, hpx⟩
  · intro x hx hpx
    rw [hu]
    simp [List.mem_filter, hx, hpx]
  · intro x
    rw [← List.count_append]
    exact hperm.count_eq x

/-! ### Claim C7: `filter_with_state` -/

theorem fwsGo_zip (p : Option β → Option β → Bool) :
    ∀ (l : List (Option β)) (prev : Option β),
      fwsGo p prev l =
        ((l.zip (prev :: l)).filter (fun c => c.2.isNone || p c.2 c.1)).map Prod.fst := by
  intro l
  induction l with
  | nil => intro prev; rfl
  | cons x xs ih =>
    intro prev
    by_cases h : (prev.isNone || p prev x) = true
    · simp [fwsGo, h, List.filter_cons, ih x]
    · simp [fwsGo, h, List.filter_cons, ih x]

theorem fwsGo_claim (p : Option β → Option β → Bool) :
    ∀ (l : List (Option β)) (prev : Option β), prev ≠ none → (∀ a ∈ l, a ≠ none) →
      fwsGo p prev l = fwsClaimGo p prev l := by
  intro l
  induction l with
  | nil => intro prev _ _; rfl
  | cons x xs ih =>
    intro prev hprev hl
    have hnone : prev.isNone = false := by
      cases prev with
      | none => exact absurd rfl hprev
      | some a => rfl
    have hx : x ≠ none := hl x (List.mem_cons_self x xs)
    have hxs : ∀ a ∈ xs, a ≠ none := fun a ha => hl a (List.mem_cons_of_mem x ha)
    by_cases h : p prev x = true
    · simp [fwsGo, fwsClaimGo, hnone, h, ih x hx hxs]
    · rw [Bool.not_eq_true] at h
      simp [fwsGo, fwsClaimGo, hnone, h, ih x hx hxs]

/-- Counterexample to claim C7: with the always-false predicate on the
input `[None, 0]`, the code emits the second item as well (its predecessor
is `None`, which trips the `prev is None` sentinel), whereas the claim says
a subsequent item is emitted only when the predicate accepts the pair. -/
theorem filter_with_state_claim_cex :
    filter_with_state [none, some 0] (fun _ _ => false) ≠
      fwsClaim ([none, some 0] : List (Option Nat)) (fun _ _ => false) := by
  decide

/-- Claim C7 as amended: `filter_with_state` emits the first input item
unconditionally and emits each subsequent item exactly when the
immediately preceding input item was `None` or the predicate accepts
(previous input item, current item) — the code reuses `None` as the
no-previous sentinel.  Whenever no input item is `None`, the original
claim's description holds verbatim. -/
theorem filter_with_state_amended (items : List (Option β))
    (p : Option β → Option β → Bool) :
    filter_with_state items p = fwsAmendedSpec items p ∧
    ((∀ a ∈ items, a ≠ none) → filter_with_state items p = fwsClaim items p) := by
  constructor
  · cases items with
    | nil => rfl
    | cons x xs =>
      show fwsGo p none (x :: xs) = fwsAmendedSpec (x :: xs) p
      simp only [fwsGo, Option.isNone_none, Bool.true_or, if_pos, fwsAmendedSpec]
      rw [fwsGo_zip p xs x]
  · intro h
    cases items with
    | nil => rfl
    | cons x xs =>
      show fwsGo p none (x :: xs) = fwsClaim (x :: xs) p
      simp only [fwsGo, Option.isNone_none, Bool.true_or, if_pos, fwsClaim]
      exact congrArg (x :: ·)
        (fwsGo_claim p xs x (h x (List.mem_cons_self x xs))
          (fun a ha => h a (List.mem_cons_of_mem x ha)))

/-- Witness for claim C7's amended theorem on the `None`-free input
`[1, 2, 1]` with a strictly-increasing predicate. -/
theorem filter_with_state_amended_witness :
    filter_with_state [some 1, some 2, some 1]
        (fun a b => decide (a.getD 0 < b.getD 0)) =
      fwsClaim ([some 1, some 2, some 1] : List (Option Nat))
        (fun a b => decide (a.getD 0 < b.getD 0)) :=
  (filter_with_state_amended [some 1, some 2, some 1]
    (fun a b => decide (a.getD 0 < b.getD 0))).2 (by decide)

/-! ### Claim C8: `rolling_aggregate` -/

theorem raGo_length (f : Option β → Option β → Option β) :
    ∀ (l : List (Option β)) (agg : Option β), (raGo f agg l).length = l.length := by
  intro l
  induction l with
  | nil => intro agg; rfl
  | cons x xs ih => intro agg; simp [raGo, ih]

theorem scanl_eq_cons_tail (g : γ → δ → γ) (b : γ) :
    ∀ l : List δ, l.scanl g b = b :: (l.scanl g b).tail := by
  intro l
  cases l <;> simp

theorem raGo_scanl (f : Option β → Option β → Option β) :
    ∀ (l : List (Option β)) (agg : Option β),
      raGo f agg l = (l.scanl (fun a x => if a.isSome then f a x else x) agg).tail := by
  intro l
  induction l with
  | nil => intro agg; rfl
  | cons x xs ih =>
    intro agg
    simp only [raGo, List.scanl_cons, List.singleton_append, List.tail_cons]
    rw [ih, ← scanl_eq_cons_tail]

theorem raGo_spec (f : Option β → Option β → Option β) (hf : ∀ a b, f a b ≠ none) :
    ∀ (l : List (Option β)) (agg : Option β), agg.isSome →
      raGo f agg l = raSpecGo f agg l := by
  intro l
  induction l with
  | nil => intro agg _; rfl
  | cons x xs ih =>
    intro agg hagg
    have h2 : (f agg x).isSome := Option.ne_none_iff_isSome.mp (hf agg x)
    simp only [raGo, raSpecGo, hagg, if_pos]
    exact congrArg (f agg x :: ·) (ih (f agg x) h2)

/-- Counterexample to claim C8: with `initial = 0` and a combine function
that returns `None`, the second output is the second item verbatim (the
accumulator hit the `is not None` sentinel), not
`combine(output_1, item_2)` as the claim requires. -/
theorem rolling_aggregate_claim_cex :
    rolling_aggregate [some 1, some 2] (fun _ _ => none) (some 0) ≠
      raClaimSupplied (fun _ _ => none) (some 0)
        ([some 1, some 2] : List (Option Nat)) := by
  decide

/-- Claim C8 as amended: `rolling_aggregate` produces exactly one output
per input item, following the recurrence output_i = combine(output_(i-1),
item_i) when the previous accumulator is not `None` and output_i = item_i
verbatim when it is `None` (the code uses `None` as the absent-accumulator
sentinel); an empty input yields an empty output.  The claim's recurrences
hold verbatim whenever combine never returns `None` and — for the omitted
`initial` case — no input item is `None`. -/
theorem rolling_aggregate_amended (items : List (Option β))
    (f : Option β → Option β → Option β) (initial : Option β) :
    (rolling_aggregate items f initial).length = items.length ∧
    rolling_aggregate items f initial =
      (items.scanl (fun a x => if a.isSome then f a x else x) initial).tail ∧
    (initial.isSome → (∀ a b, f a b ≠ none) →
      rolling_aggregate items f initial = raClaimSupplied f initial items) ∧
    ((∀ a b, f a b ≠ none) → (∀ x ∈ items, x ≠ none) →
      rolling_aggregate items f none = raClaimOmitted f items) ∧
    (items = [] → rolling_aggregate items f initial = []) := by
  refine ⟨raGo_length f items initial, raGo_scanl f items initial,
    fun h1 h2 => raGo_spec f h2 items initial h1, fun h1 h2 => ?_, fun h => ?_⟩
  · cases items with
    | nil => rfl
    | cons x xs =>
      have hx : x.isSome :=
        Option.ne_none_iff_isSome.mp (h2 x (List.mem_cons_self x xs))
      show raGo f none (x :: xs) = raClaimOmitted f (x :: xs)
      simp only [raGo, Option.isSome_none, Bool.false_eq_true, if_neg,
        not_false_iff, raClaimOmitted]
      exact congrArg (x :: ·) (raGo_spec f h1 xs x hx)
  · subst h
    rfl

/-- Witness for claim C8's amended theorem with addition as the combine
function on `[1, 2, 3]`, both with `initial = 0` and omitted. -/
theorem rolling_aggregate_amended_witness :
    rolling_aggregate [some 1, some 2, some 3]
        (fun a b => some (a.getD 0 + b.getD 0)) (some 0) =
      raClaimSupplied (fun a b => some (a.getD 0 + b.getD 0)) (some 0)
        ([some 1, some 2, some 3] : List (Option Nat)) ∧
    rolling_aggregate [some 1, some 2, some 3]
        (fun a b => some (a.getD 0 + b.getD 0)) none =
      raClaimOmitted (fun a b => some (a.getD 0 + b.getD 0))
        ([some 1, some 2, some 3] : List (Option Nat)) :=
  ⟨(rolling_aggregate_amended [some 1, some 2, some 3]
      (fun a b => some (a.getD 0 + b.getD 0)) (some 0)).2.2.1 rfl
      (fun _ _ => Option.some_ne_none _),
   (rolling_aggregate_amended [some 1, some 2, some 3]
      (fun a b => some (a.getD 0 + b.getD 0)) none).2.2.2.1
      (fun _ _ => Option.some_ne_none _) (by decide)⟩

/-! ### Claim C9: `inner_join` -/

theorem buildLookupFrom_append [DecidableEq κ] (key2 : β → κ) :
    ∀ (rs1 rs2 : List β) (d : κ → Option β),
      buildLookupFrom key2 d (rs1 ++ rs2) =
        buildLookupFrom key2 (buildLookupFrom key2 d rs1) rs2 := by
  intro rs1
  induction rs1 with
  | nil => intro rs2 d; rfl
  | cons r rs1 ih =>
    intro rs2 d
    rw [List.cons_append, buildLookupFrom, buildLookupFrom, ih]

/-- The dict built by `inner_join` from the right stream maps each key to
the *last* right item carrying it (later insertions overwrite earlier
ones). -/
theorem buildLookup_eq_getLast [DecidableEq κ] (key2 : β → κ) (rs : List β) (k : κ) :
    buildLookup key2 rs k = (rs.filter (fun r => decide (k = key2 r))).getLast? := by
  induction rs using List.reverseRecOn with
  | nil => rfl
  | append_singleton rs r ih =>
    rw [buildLookup, buildLookupFrom_append]
    show (if k = key2 r then some r else buildLookupFrom key2 (fun _ => none) rs k) = _
    rw [List.filter_append]
    by_cases h : k = key2 r
    · rw [if_pos h]
      have hc : (decide (k = key2 r)) = true := decide_eq_true h
      simp [hc, List.getLast?_concat]
    · rw [if_neg h]
      have hc : (decide (k = key2 r)) = false := decide_eq_false h
      simp only [List.filter_cons, List.filter_nil, hc, Bool.false_eq_true, if_false,
        List.append_nil]
      exact ih

theorem buildLookup_isSome_eq_any [DecidableEq κ] (key2 : β → κ) (rs : List β) (k : κ) :
    (buildLookup key2 rs k).isSome = rs.any (fun r => decide (k = key2 r)) := by
  rw [buildLookup_eq_getLast]
  cases hfe : rs.filter (fun r => decide (k = key2 r)) with
  | nil =>
    have hall : ∀ r ∈ rs, ¬ k = key2 r := by
      intro r hr
      have := List.filter_eq_nil_iff.mp hfe r hr
      simpa using this
    simp [List.any_eq_true]
    intro r hr
    exact hall r hr
  | cons a l =>
    have ha : a ∈ rs.filter (fun r => decide (k = key2 r)) := by
      rw [hfe]
      exact List.mem_cons_self a l
    have hmem := List.mem_filter.mp ha
    have h1 : ((a :: l).getLast?).isSome = true := by
      rw [List.getLast?_isSome]
      simp
    have h2 : rs.any (fun r => decide (k = key2 r)) = true := by
      simp only [List.any_eq_true]
      exact ⟨a, hmem.1, hmem.2⟩
    rw [h1, h2]

/-- Claim C9: `inner_join` streams pairs in left-stream order — it is the
`filterMap` over the left stream that pairs each left item, whose key
matches some right item, with the *last* right item indexed under that key
(last-write-wins); left items with duplicate keys are not deduplicated,
each matching left occurrence contributing its own pair, as shown by the
projection of the output onto its left components being exactly the
filter of the left stream by key membership. -/
theorem inner_join_spec [DecidableEq κ] (s1 : List τ) (s2 : List β)
    (key1 : τ → κ) (key2 : β → κ) :
    inner_join s1 s2 key1 key2 =
      s1.filterMap (fun l =>
        ((s2.filter (fun r => decide (key1 l = key2 r))).getLast?).map
          (fun r => (l, r))) ∧
    (inner_join s1 s2 key1 key2).map Prod.fst =
      s1.filter (fun l => s2.any (fun r => decide (key1 l = key2 r))) := by
  constructor
  · simp only [inner_join, buildLookup_eq_getLast]
  · induction s1 with
    | nil => rfl
    | cons l s1 ih =>
      cases hc : buildLookup key2 s2 (key1 l) with
      | none =>
        have hany : s2.any (fun r => decide (key1 l = key2 r)) = false := by
          have := buildLookup_isSome_eq_any key2 s2 (key1 l)
          rw [hc] at this
          simpa using this.symm
        simp only [inner_join, List.filterMap_cons, hc, Option.map_none',
          List.filter_cons, hany]
        simpa [inner_join] using ih
      | some r =>
        have hany : s2.any (fun r => decide (key1 l = key2 r)) = true := by
          have := buildLookup_isSome_eq_any key2 s2 (key1 l)
          rw [hc] at this
          simpa using this.symm
        simp only [inner_join, List.filterMap_cons, hc, Option.map_some',
          List.filter_cons, hany, if_pos, List.map_cons]
        refine congrArg (l :: ·) ?_
        simpa [inner_join] using ih

/-! ### Claim C10: `roundrobin` -/

theorem roundRound_fst :
    ∀ ls : List (List α), (roundRound ls).1 = ls.filterMap List.head? := by
  intro ls
  induction ls with
  | nil => rfl
  | cons l rest ih =>
    cases l with
    | nil => simpa [roundRound] using ih
    | cons x xs => simp [roundRound, ih]

theorem roundRound_snd :
    ∀ ls : List (List α),
      (roundRound ls).2 = (ls.filter (fun l => !l.isEmpty)).map List.tail := by
  intro ls
  induction ls with
  | nil => rfl
  | cons l rest ih =>
    cases l with
    | nil => simpa [roundRound, List.filter_cons] using ih
    | cons x xs => simp [roundRound, List.filter_cons, ih]

theorem filterMap_getElem_succ (r : Nat) :
    ∀ ls : List (List α),
      ls.filterMap (fun l => l[r + 1]?) =
        (roundRound ls).2.filterMap (fun l => l[r]?) := by
  intro ls
  induction ls with
  | nil => rfl
  | cons l rest ih =>
    cases l with
    | nil => simpa [roundRound] using ih
    | cons x xs => simp [roundRound, List.filterMap_cons, ih]

theorem rrMaxLen_cons (l : List α) (rest : List (List α)) :
    rrMaxLen (l :: rest) = max l.length (rrMaxLen rest) := rfl

theorem rrMaxLen_roundRound :
    ∀ ls : List (List α), rrMaxLen (roundRound ls).2 = rrMaxLen ls - 1 := by
  intro ls
  induction ls with
  | nil => rfl
  | cons l rest ih =>
    cases l with
    | nil =>
      rw [roundRound, rrMaxLen_cons, ih]
      simp
    | cons x xs =>
      show rrMaxLen (xs :: (roundRound rest).2) = rrMaxLen ((x :: xs) :: rest) - 1
      rw [rrMaxLen_cons, rrMaxLen_cons, ih]
      simp
      omega

theorem rrMeasure_roundRound_le :
    ∀ ls : List (List α), rrMeasure (roundRound ls).2 ≤ rrMeasure ls := by
  intro ls
  induction ls with
  | nil => simp [roundRound]
  | cons l rest ih =>
    cases l with
    | nil =>
      show rrMeasure (roundRound rest).2 ≤ rrMeasure ([] :: rest)
      simp only [rrMeasure, List.map_cons, List.sum_cons] at *
      omega
    | cons x xs =>
      show rrMeasure (xs :: (roundRound rest).2) ≤ rrMeasure ((x :: xs) :: rest)
      simp only [rrMeasure, List.map_cons, List.sum_cons, List.length_cons] at *
      omega

theorem rrMeasure_roundRound_lt (ls : List (List α)) (h : ls ≠ []) :
    rrMeasure (roundRound ls).2 < rrMeasure ls := by
  cases ls with
  | nil => exact absurd rfl h
  | cons l rest =>
    cases l with
    | nil =>
      show rrMeasure (roundRound rest).2 < rrMeasure ([] :: rest)
      have := rrMeasure_roundRound_le rest
      simp only [rrMeasure, List.map_cons, List.sum_cons] at *
      omega
    | cons x xs =>
      show rrMeasure (xs :: (roundRound rest).2) < rrMeasure ((x :: xs) :: rest)
      have := rrMeasure_roundRound_le rest
      simp only [rrMeasure, List.map_cons, List.sum_cons, List.length_cons] at *
      omega

theorem roundRound_of_rrMaxLen_zero :
    ∀ ls : List (List α), rrMaxLen ls = 0 → roundRound ls = ([], []) := by
  intro ls
  induction ls with
  | nil => intro _; rfl
  | cons l rest ih =>
    intro h
    rw [rrMaxLen_cons] at h
    have hl : l.length = 0 := by omega
    have hr : rrMaxLen rest = 0 := by omega
    have : l = [] := List.length_eq_zero.mp hl
    subst this
    show roundRound rest = ([], [])
    exact ih hr

theorem getElem_zero_eq_head? (l : List α) : l[0]? = l.head? := by
  cases l <;> simp

theorem rrSpec_nil : rrSpec ([] : List (List α)) = [] := rfl

theorem roundRound_spec_step (ls : List (List α)) :
    (roundRound ls).1 ++ rrSpec (roundRound ls).2 = rrSpec ls := by
  cases hm : rrMaxLen ls with
  | zero =>
    rw [roundRound_of_rrMaxLen_zero ls hm]
    show ([] : List α) ++ rrSpec [] = rrSpec ls
    rw [rrSpec_nil, rrSpec, hm]
    rfl
  | succ m =>
    have h2 : rrMaxLen (roundRound ls).2 = m := by
      rw [rrMaxLen_roundRound, hm]
      omega
    rw [rrSpec, h2]
    rw [rrSpec, hm, List.range_succ_eq_map, List.map_cons, List.flatten_cons,
      List.map_map]
    refine congrArg₂ (· ++ ·) ?_ ?_
    · rw [roundRound_fst]
      simp [getElem_zero_eq_head?]
    · refine congrArg List.flatten ?_
      refine List.map_congr_left ?_
      intro r _
      exact (filterMap_getElem_succ r ls).symm

theorem rrMeasure_eq_zero (ls : List (List α)) (h : rrMeasure ls = 0) : ls = [] := by
  cases ls with
  | nil => rfl
  | cons l rest =>
    simp [rrMeasure] at h

theorem rrLoop_spec :
    ∀ (fuel : Nat) (ls : List (List α)), rrMeasure ls ≤ fuel →
      rrLoop fuel ls = rrSpec ls := by
  intro fuel
  induction fuel with
  | zero =>
    intro ls h
    have : ls = [] := rrMeasure_eq_zero ls (by omega)
    subst this
    rfl
  | succ fuel ih =>
    intro ls h
    by_cases he : ls.isEmpty
    · have : ls = [] := by simpa [List.isEmpty_iff] using he
      subst this
      rfl
    · have hne : ls ≠ [] := by simpa [List.isEmpty_iff] using he
      show (if ls.isEmpty then [] else
        ((roundRound ls).1 ++ rrLoop fuel (roundRound ls).2)) = rrSpec ls
      rw [if_neg (by simpa [List.isEmpty_iff] using hne)]
      have hlt := rrMeasure_roundRound_lt ls hne
      rw [ih (roundRound ls).2 (by omega)]
      exact roundRound_spec_step ls

/-- Claim C10: `roundrobin` takes one item from each still-active input
sequence in listed order, round by round, permanently dropping exhausted
sequences, so its output is exactly the round-by-round reading of the
inputs (round index, then input index); in particular
`roundrobin [[1,2],[3,4,5,6],[7]] = [1,3,7,2,4,5,6]`, no inputs give the
empty output, and `roundrobin [[],[1,2,3]] = [1,2,3]`. -/
theorem roundrobin_spec :
    (∀ ls : List (List α), roundrobin ls = rrSpec ls) ∧
    roundrobin [[1, 2], [3, 4, 5, 6], [7]] = [1, 3, 7, 2, 4, 5, 6] ∧
    roundrobin ([] : List (List Nat)) = [] ∧
    roundrobin [[], [1, 2, 3]] = [1, 2, 3] := by
  refine ⟨fun ls => rrLoop_spec (rrMeasure ls) ls (Nat.le_refl _), ?_, ?_, ?_⟩
  · rfl
  · rfl
  · rfl

/-! ### Claim C1: `peek` -/

theorem peekInit_inv (S : List α) (n : Nat) : PeekInv S n (peekInit S n) := by
  refine ⟨rfl, rfl, by simp [peekInit], ?_, by simp [peekInit]⟩
  intro hc
  exact absurd hc (by simp [peekInit])

theorem peekStep_inv {S : List α} {n : Nat} (s : PeekState α) (a : PeekAction)
    (h : PeekInv S n s) : PeekInv S n (peekStep s a) := by
  obtain ⟨src, b1, b2, pl, cp, po, co, rd⟩ := s
  obtain ⟨h1, h2, h3, h4, h5⟩ := h
  cases a with
  | pullPeeked =>
    by_cases hp : pl = 0
    · show PeekInv S n (if pl = 0 then _ else _)
      rw [if_pos hp]
      exact ⟨h1, h2, h3, h4, h5⟩
    · show PeekInv S n (if pl = 0 then _ else _)
      rw [if_neg hp]
      cases b1 with
      | cons x r =>
        refine ⟨h1, ?_, ?_, h4, h5⟩
        · show (po ++ [x]) ++ r ++ src = S
          simp only [List.append_assoc, List.singleton_append,
            List.cons_append] at h2 ⊢
          exact h2
        · show (po ++ [x]).length + (pl - 1) = n
          simp only [List.length_append, List.length_cons, List.length_nil] at h3 ⊢
          omega
      | nil =>
        cases src with
        | cons y r2 =>
          refine ⟨?_, ?_, ?_, ?_, ?_⟩
          · show co ++ (b2 ++ [y]) ++ r2 = S
            simp only [List.append_assoc, List.singleton_append,
              List.cons_append] at h1 ⊢
            exact h1
          · show (po ++ [y]) ++ [] ++ r2 = S
            simp only [List.append_assoc, List.singleton_append, List.nil_append,
              List.append_nil, List.cons_append] at h2 ⊢
            exact h2
          · show (po ++ [y]).length + (pl - 1) = n
            simp only [List.length_append, List.length_cons, List.length_nil] at h3 ⊢
            omega
          · intro hcp
            exact absurd (h4 hcp).1 (by simp)
          · show rd + 1 + r2.length = S.length
            simp only [List.length_cons] at h5
            omega
        | nil =>
          exact ⟨h1, h2, h3, h4, h5⟩
  | pullCont =>
    cases cp with
    | true =>
      cases src with
      | cons y r2 =>
        exact absurd (h4 rfl).1 (by simp)
      | nil =>
        exact ⟨h1, h2, h3, h4, h5⟩
    | false =>
      cases b2 with
      | cons x r =>
        refine ⟨?_, h2, h3, ?_, h5⟩
        · show (co ++ [x]) ++ r ++ src = S
          simp only [List.append_assoc, List.singleton_append,
            List.cons_append] at h1 ⊢
          exact h1
        · intro hcp
          cases hcp
      | nil =>
        cases src with
        | cons y r2 =>
          refine ⟨?_, ?_, h3, ?_, ?_⟩
          · show (co ++ [y]) ++ [] ++ r2 = S
            simp only [List.append_assoc, List.singleton_append, List.nil_append,
              List.append_nil, List.cons_append] at h1 ⊢
            exact h1
          · show po ++ (b1 ++ [y]) ++ r2 = S
            simp only [List.append_assoc, List.singleton_append,
              List.cons_append] at h2 ⊢
            exact h2
          · intro hcp
            cases hcp
          · show rd + 1 + r2.length = S.length
            simp only [List.length_cons] at h5
            omega
        | nil =>
          exact ⟨h1, h2, h3, fun _ => ⟨rfl, rfl⟩, h5⟩

theorem peekRun_inv (S : List α) (n : Nat) (acts : List PeekAction) :
    PeekInv S n (peekRun S n acts) := by
  rw [peekRun]
  have main : ∀ (as : List PeekAction) (s : PeekState α), PeekInv S n s →
      PeekInv S n (as.foldl peekStep s) := by
    intro as
    induction as with
    | nil => intro s hs; exact hs
    | cons a as ih =>
      intro s hs
      exact ih (peekStep s a) (peekStep_inv s a hs)
  exact main acts (peekInit S n) (peekInit_inv S n)

/-- Claim C1: for every input sequence `S`, peek count `n ≥ 0`, and any
interleaved schedule of pulls on the two sequences returned by
`peek(S, n)`: once the peeked sequence is exhausted it has delivered
exactly the first `min(n, |S|)` items of `S`; once the continuation is
exhausted it has delivered every item of `S` exactly once in original
order — no matter whether the peeked sequence was pulled before it, after
it, interleaved with it, or not at all; and the underlying physical source
is never read more than `|S|` times in total (each item at most once)
across both sequences. -/
theorem peekInv_conclusions (S : List α) (n : Nat) (s : PeekState α)
    (h : PeekInv S n s) :
    (peekedDone s → s.peekOut = S.take (min n S.length)) ∧
    (contDone s → s.contOut = S) ∧
    s.reads ≤ S.length := by
  obtain ⟨h1, h2, h3, h4, h5⟩ := h
  refine ⟨?_, ?_, by omega⟩
  · intro hd
    have hlen2 : s.peekOut.length + (s.buf1.length + s.source.length) = S.length := by
      have := congrArg List.length h2
      simpa using this
    have hpre : s.peekOut = S.take s.peekOut.length := by
      rw [← h2, List.append_assoc]
      exact (List.take_left _ _).symm
    rcases hd with hd | ⟨hb, hs⟩
    · have hlen : s.peekOut.length = n := by omega
      have hle : n ≤ S.length := by omega
      rw [Nat.min_eq_left hle, ← hlen]
      exact hpre
    · rw [hb, hs] at h2
      have hSlen : S.length ≤ n := by
        have := congrArg List.length h2
        simp at this
        omega
      rw [Nat.min_eq_right hSlen, List.take_length]
      simpa using h2
  · intro hd
    obtain ⟨hb2, hs⟩ := hd
    rw [hb2, hs] at h1
    simpa using h1

/-- Claim C1: for every input sequence `S`, peek count `n ≥ 0`, and any
interleaved schedule of pulls on the two sequences returned by
`peek(S, n)`: once the peeked sequence is exhausted it has delivered
exactly the first `min(n, |S|)` items of `S`; once the continuation is
exhausted it has delivered every item of `S` exactly once in original
order — no matter whether the peeked sequence was pulled before it, after
it, interleaved with it, or not at all; and the underlying physical source
is never read more than `|S|` times in total (each item at most once)
across both sequences. -/
theorem peek_correct (S : List α) (n : Nat) (acts : List PeekAction) :
    (peekedDone (peekRun S n acts) →
      (peekRun S n acts).peekOut = S.take (min n S.length)) ∧
    (contDone (peekRun S n acts) → (peekRun S n acts).contOut = S) ∧
    (peekRun S n acts).reads ≤ S.length :=
  peekInv_conclusions S n (peekRun S n acts) (peekRun_inv S n acts)

/-- Witness for claim C1 on `S = [10, 20, 30]`, `n = 2`, and a schedule
that interleaves pulls on the two sequences until both are exhausted. -/
theorem peek_correct_witness :
    peekedDone (peekRun [10, 20, 30] 2
      [PeekAction.pullPeeked, PeekAction.pullCont, PeekAction.pullCont,
        PeekAction.pullPeeked, PeekAction.pullCont, PeekAction.pullCont]) ∧
    contDone (peekRun [10, 20, 30] 2
      [PeekAction.pullPeeked, PeekAction.pullCont, PeekAction.pullCont,
        PeekAction.pullPeeked, PeekAction.pullCont, PeekAction.pullCont]) ∧
    (peekRun [10, 20, 30] 2
      [PeekAction.pullPeeked, PeekAction.pullCont, PeekAction.pullCont,
        PeekAction.pullPeeked, PeekAction.pullCont, PeekAction.pullCont]).peekOut =
      List.take (min 2 (List.length ([10, 20, 30] : List Nat))) [10, 20, 30] ∧
    (peekRun [10, 20, 30] 2
      [PeekAction.pullPeeked, PeekAction.pullCont, PeekAction.pullCont,
        PeekAction.pullPeeked, PeekAction.pullCont, PeekAction.pullCont]).contOut =
      [10, 20, 30] ∧
    (peekRun [10, 20, 30] 2
      [PeekAction.pullPeeked, PeekAction.pullCont, PeekAction.pullCont,
        PeekAction.pullPeeked, PeekAction.pullCont, PeekAction.pullCont]).reads ≤
      ([10, 20, 30] : List Nat).length :=
  ⟨by decide, by decide,
   (peek_correct [10, 20, 30] 2
     [PeekAction.pullPeeked, PeekAction.pullCont, PeekAction.pullCont,
       PeekAction.pullPeeked, PeekAction.pullCont, PeekAction.pullCont]).1 (by decide),
   (peek_correct [10, 20, 30] 2
     [PeekAction.pullPeeked, PeekAction.pullCont, PeekAction.pullCont,
       PeekAction.pullPeeked, PeekAction.pullCont, PeekAction.pullCont]).2.1 (by decide),
   (peek_correct [10, 20, 30] 2
     [PeekAction.pullPeeked, PeekAction.pullCont, PeekAction.pullCont,
       PeekAction.pullPeeked, PeekAction.pullCont, PeekAction.pullCont]).2.2⟩

/-- Witness for claim C2 at `S = [0,…,9]` and `size = 3`. -/
theorem batches_spec_witness :
    ∃ R, batches [0, 1, 2, 3, 4, 5, 6, 7, 8, 9] (3 : Int) = Except.ok R ∧
      R.flatten = [0, 1, 2, 3, 4, 5, 6, 7, 8, 9] ∧
      (∀ g ∈ R.dropLast, g.length = (3 : Int).toNat) ∧
      (∀ g ∈ R, 1 ≤ g.length ∧ g.length ≤ (3 : Int).toNat) ∧
      ([0, 1, 2, 3, 4, 5, 6, 7, 8, 9] = ([] : List Nat) → R = []) :=
  batches_spec [0, 1, 2, 3, 4, 5, 6, 7, 8, 9] 3 (by norm_num)

end Uuuu
